import Mathlib

/-!
Shallow embedding of the Lunari translator engine (`src/app.js`).

Strings are modelled as `List Char` (`Str`).  JavaScript case mapping is
modelled on the ASCII fragment, which is the fragment the engine's tokenizer
recognises as letters (`[A-Za-z]`).  JavaScript runtime values that can occur
as dictionary entries are modelled by `JSVal`; objects are modelled by the one
property the engine reads (`l`).  Code that can raise a `TypeError` (calling a
string method on a non-string) is modelled in the `Except Unit` monad.
-/

abbrev Str := List Char

/-- The apostrophe character (code 39). -/
def apos : Char := Char.ofNat 39

/-- The newline character (code 10). -/
def nlChar : Char := Char.ofNat 10

/-- JavaScript whitespace (`\s`), restricted to the ASCII range. -/
def jsIsWs (c : Char) : Bool :=
  c = ' ' || c = Char.ofNat 9 || c = nlChar || c = Char.ofNat 13 ||
  c = Char.ofNat 11 || c = Char.ofNat 12

/-- ASCII lower-casing of one character, the fragment of JS `toLowerCase`
the engine relies on. -/
def asciiLower (c : Char) : Char :=
  if 65 ≤ c.toNat ∧ c.toNat ≤ 90 then Char.ofNat (c.toNat + 32) else c

/-- ASCII upper-casing of one character, the fragment of JS `toUpperCase`
the engine relies on. -/
def asciiUpper (c : Char) : Char :=
  if 97 ≤ c.toNat ∧ c.toNat ≤ 122 then Char.ofNat (c.toNat - 32) else c

/-- JS `String.prototype.toLowerCase` (ASCII fragment). -/
def jsToLower (s : Str) : Str := s.map asciiLower

/-- JS `String.prototype.toUpperCase` (ASCII fragment). -/
def jsToUpper (s : Str) : Str := s.map asciiUpper

/-- JS `String.prototype.trim`: drop whitespace from both ends. -/
def jsTrim (s : Str) : Str :=
  ((s.dropWhile jsIsWs).reverse.dropWhile jsIsWs).reverse

/-- `replace(/\s+/g, " ")`: each maximal whitespace run becomes one space. -/
def collapseWs : Str → Str
  | [] => []
  | [c] => if jsIsWs c then [' '] else [c]
  | c :: d :: cs =>
    if jsIsWs c && jsIsWs d then collapseWs (d :: cs)
    else (if jsIsWs c then ' ' else c) :: collapseWs (d :: cs)

/-- `normalizeSpaces` from `app.js`: `s.trim().replace(/\s+/g, " ")`. -/
def normalizeSpaces (s : Str) : Str := collapseWs (jsTrim s)

/-- The character class `[A-Za-z]` of the tokenizer regex. -/
def isAsciiLetter (c : Char) : Bool :=
  (65 ≤ c.toNat && c.toNat ≤ 90) || (97 ≤ c.toNat && c.toNat ≤ 122)

/-- JavaScript runtime values as far as the engine observes them.  An object
is represented by its `l` property: `objL v` is an object whose `l` property
holds `v`, `objPlain` one without a (defined) `l` property; this is the only
property the engine ever reads from a dictionary entry. -/
inductive JSVal : Type where
  | str : Str → JSVal
  | num : Int → JSVal
  | boolv : Bool → JSVal
  | nullv : JSVal
  | objPlain : JSVal
  | objL : JSVal → JSVal
  deriving DecidableEq, Repr

/-- JS truthiness of a value (`if (v)`). -/
def jsTruthy : JSVal → Bool
  | .str s => !s.isEmpty
  | .num n => n ≠ 0
  | .boolv b => b
  | .nullv => false
  | .objPlain => true
  | .objL _ => true

/-- JS string coercion (`String(v)`), used by `Array.prototype.join`
and template literals. -/
def jsToStr : JSVal → Str
  | .str s => s
  | .num n => (toString n).toList
  | .boolv b => if b then "true".toList else "false".toList
  | .nullv => "null".toList
  | .objPlain => "[object Object]".toList
  | .objL _ => "[object Object]".toList

/-- A dictionary after `ensureDictShape`: the `words` and `phrases` objects,
modelled as association lists keyed by strings (JS object property order). -/
structure Dict : Type where
  words : List (Str × JSVal)
  phrases : List (Str × JSVal)
  deriving DecidableEq, Repr

/-- JS property read `o[k]` on an object modelled as an association list
(`none` = `undefined`). -/
def lookupA {α : Type} (k : Str) : List (Str × α) → Option α
  | [] => none
  | (k2, v) :: rest => if k2 = k then some v else lookupA k rest

/-- JS property write `o[k] = v`: overwrite in place, else append. -/
def insertA {α : Type} (k : Str) (v : α) : List (Str × α) → List (Str × α)
  | [] => [(k, v)]
  | (k2, v2) :: rest =>
    if k2 = k then (k, v) :: rest else (k2, v2) :: insertA k v rest

/-- One pass of the global regex
`/[A-Za-z]+(?:'[A-Za-z]+)?|[^A-Za-z]+/g`, with fuel for termination; the
fuel is always instantiated with the length of the input, which suffices
because every step consumes at least one character. -/
def tokAux : Nat → Str → List Str
  | 0, _ => []
  | _ + 1, [] => []
  | n + 1, c :: cs =>
    if isAsciiLetter c then
      let w := List.takeWhile isAsciiLetter (c :: cs)
      let rest := List.dropWhile isAsciiLetter (c :: cs)
      match rest with
      | c2 :: d :: r2 =>
        if c2 = apos && isAsciiLetter d then
          (w ++ c2 :: List.takeWhile isAsciiLetter (d :: r2))
            :: tokAux n (List.dropWhile isAsciiLetter (d :: r2))
        else w :: tokAux n rest
      | _ => w :: tokAux n rest
    else
      List.takeWhile (fun x => !isAsciiLetter x) (c :: cs)
        :: tokAux n (List.dropWhile (fun x => !isAsciiLetter x) (c :: cs))

/-- `tokenizeKeepPunct` from `app.js`:
`input.match(/[A-Za-z]+(?:'[A-Za-z]+)?|[^A-Za-z]+/g) || []`. -/
def tokenizeKeepPunct (input : Str) : List Str := tokAux input.length input

/-- `isAllCaps` from `app.js`: `s.length > 1 && s === s.toUpperCase()`. -/
def isAllCaps (s : Str) : Bool := decide (1 < s.length ∧ s = jsToUpper s)

/-- `isTitleCase` from `app.js`:
`s.length > 0 && s[0] === s[0].toUpperCase() && s.slice(1) === s.slice(1).toLowerCase()`. -/
def isTitleCase : Str → Bool
  | [] => false
  | c :: cs => decide (asciiUpper c = c ∧ cs = jsToLower cs)

/-- `applyCasing` from `app.js`.  The translated token is an arbitrary JS
value (a dictionary entry's `l` field can hold anything); calling a string
method (`toUpperCase`, `slice`, `toLowerCase`) on a truthy non-string raises
a `TypeError`, modelled as `Except.error ()`.  (In the title-case branch even
an object with a string `"0"` property throws at `.slice(1)`, so every
truthy non-string throws in each of the three casing branches.) -/
def applyCasingJS (sourceToken : Str) (translatedToken : JSVal) :
    Except Unit JSVal :=
  if !jsTruthy translatedToken then .ok translatedToken
  else
    match translatedToken with
    | .str t =>
      if isAllCaps sourceToken then .ok (.str (jsToUpper t))
      else if isTitleCase sourceToken then
        .ok (.str (match t with
          | [] => []
          | c :: cs => asciiUpper c :: jsToLower cs))
      else if sourceToken = jsToLower sourceToken then .ok (.str (jsToLower t))
      else .ok (.str t)
    | v =>
      if isAllCaps sourceToken || isTitleCase sourceToken
          || decide (sourceToken = jsToLower sourceToken) then .error ()
      else .ok v

/-- `lookupWord` from `app.js`.  `none` models the JS `null` result.
`activeDict` may be absent (`null`); `!entry` skips falsy entries; a string
entry is returned as is; an object entry is returned through its truthy `l`
property; anything else is a miss. -/
def lookupWordD (dict : Option Dict) (englishWord : Str) : Option JSVal :=
  match dict with
  | none => none
  | some d =>
    match lookupA (jsToLower englishWord) d.words with
    | none => none
    | some entry =>
      if !jsTruthy entry then none
      else
        match entry with
        | .str s => some (.str s)
        | .objL v => if jsTruthy v then some v else none
        | _ => none

/-- `lookupPhrase` from `app.js`: normalize spaces, case-fold, look up in
`phrases`; a falsy stored value is a miss (`null`). -/
def lookupPhraseD (dict : Option Dict) (englishText : Str) : Option JSVal :=
  match dict with
  | none => none
  | some d =>
    match lookupA (jsToLower (normalizeSpaces englishText)) d.phrases with
    | none => none
    | some phrase => if jsTruthy phrase then some phrase else none

/-- The word-token test `/^[A-Za-z]+(?:'[A-Za-z]+)?$/.test(tok)`. -/
def isWordToken (s : Str) : Bool :=
  let w1 := s.takeWhile isAsciiLetter
  let r := s.dropWhile isAsciiLetter
  !w1.isEmpty &&
    (r.isEmpty ||
      match r with
      | c :: rest => c = apos && !rest.isEmpty && rest.all isAsciiLetter
      | [] => false)

/-- Whether a (case-folded) base form ends with `'s`
(`base.endsWith("'s")`). -/
def endsApoS (s : Str) : Bool :=
  decide (2 ≤ s.length) && decide (s.drop (s.length - 2) = [apos, 's'])

/-- Lines 90-95 of `app.js`: strip a trailing `'s` when the base is longer
than two characters; returns (possessive?, lookup key). -/
def possStrip (base : Str) : Bool × Str :=
  if endsApoS base && decide (2 < base.length) then
    (true, base.take (base.length - 2))
  else (false, base)

/-- The `-de` possessive suffix appended by the translator. -/
def deSuffix : Str := "-de".toList

/-- The `[tok]` marker emitted for unknown words when `markUnknown` is on. -/
def bracketTok (tok : Str) : Str := '[' :: (tok ++ [']'])

/-- JS `Array.prototype.map` where the body can throw: evaluates left to
right and propagates the first exception. -/
def mapME {α β : Type} (f : α → Except Unit β) : List α → Except Unit (List β)
  | [] => .ok []
  | a :: as =>
    match f a with
    | .error e => .error e
    | .ok b =>
      match mapME f as with
      | .error e => .error e
      | .ok bs => .ok (b :: bs)

/-- The body of the `tokens.map` callback in `translateText` (lines 85-110
of `app.js`), for one token.  `mu` is the `markUnknown` checkbox. -/
def translateTok (d : Dict) (mu : Bool) (tok : Str) : Except Unit JSVal :=
  if isWordToken tok then
    let base := jsToLower tok
    let ps := possStrip base
    match lookupWordD (some d) ps.2 with
    | none => .ok (.str (if mu then bracketTok tok else tok))
    | some found =>
      if !jsTruthy found then .ok (.str (if mu then bracketTok tok else tok))
      else
        match applyCasingJS tok found with
        | .error e => .error e
        | .ok translated =>
          if ps.1 then .ok (.str (jsToStr translated ++ deSuffix))
          else .ok translated
  else .ok (.str tok)

/-- `translateText` from `app.js`.  `pp` is the `preferPhrases` checkbox,
`mu` the `markUnknown` checkbox; the active dictionary may be absent.
The result is a JS value: the word-by-word path joins to a string, while a
phrase hit returns the stored value unchanged, whatever its shape. -/
def translateText (dict : Option Dict) (pp mu : Bool) (text : Str) :
    Except Unit JSVal :=
  match dict with
  | none => .ok (.str text)
  | some d =>
    let wordPass : Except Unit Str :=
      match mapME (translateTok d mu) (tokenizeKeepPunct text) with
      | .error e => .error e
      | .ok outs => .ok (List.flatten (outs.map jsToStr))
    if pp then
      match lookupPhraseD (some d) text with
      | some p => .ok p
      | none =>
        match wordPass with
        | .error e => .error e
        | .ok joined => .ok (.str joined)
    else
      match wordPass with
      | .error e => .error e
      | .ok joined =>
        match lookupPhraseD (some d) text with
        | some p => .ok p
        | none => .ok (.str joined)

/-- The word-by-word pass of `translateText` on its own (steps 2 and 4 of
the spec's algorithm): tokenize, translate each token, join. -/
def wordByWord (d : Dict) (mu : Bool) (text : Str) : Except Unit Str :=
  match mapME (translateTok d mu) (tokenizeKeepPunct text) with
  | .error e => .error e
  | .ok outs => .ok (List.flatten (outs.map jsToStr))

/-- `raw.split("\n")`, with an accumulator for the current segment
(kept reversed). -/
def splitNlAux (acc : Str) : Str → List Str
  | [] => [acc.reverse]
  | c :: cs =>
    if c = nlChar then acc.reverse :: splitNlAux [] cs
    else splitNlAux (c :: acc) cs

/-- JS `raw.split("\n")`. -/
def splitNl (raw : Str) : List Str := splitNlAux [] raw

/-- Scan for the `=` matched by `/^(.+?)\s*=\s*(.+)$/`, which (because the
lazy left group needs at least one character) is the first `=` at index ≥ 1;
returns the text before it and after it.  `acc` holds the scanned prefix
reversed. -/
def splitFirstEqAux (acc : Str) : Str → Option (Str × Str)
  | [] => none
  | c :: cs =>
    if c = '=' then some (acc.reverse, cs) else splitFirstEqAux (c :: acc) cs

/-- Split a line at the first `=` at index ≥ 1 (the `=` the quick-add regex
`/^(.+?)\s*=\s*(.+)$/` matches; the character at index 0, even if `=`,
belongs to the left group). -/
def splitFirstEq : Str → Option (Str × Str)
  | [] => none
  | c :: cs => splitFirstEqAux [c] cs

/-- Parse one already-trimmed quick-add line (the loop body of
`parseQuickAddLines`, lines 188-197 of `app.js`): split at `=`, normalize
both sides, lower-case the left, drop the line when either side normalizes
to empty; returns (routes-to-phrases?, key, value).  A line whose right side
is empty before normalization corresponds to a regex non-match (`.+` needs a
character) and is equally dropped. -/
def parseEntry (line : Str) : Option (Bool × Str × Str) :=
  match splitFirstEq line with
  | none => none
  | some (pre, suf) =>
    let left := jsToLower (normalizeSpaces pre)
    let right := normalizeSpaces suf
    if left.isEmpty || right.isEmpty then none
    else some (left.contains ' ', left, right)

/-- The accumulated additions of `parseQuickAddLines`
(`{ words: {}, phrases: {} }` with string values). -/
structure Adds : Type where
  words : List (Str × Str)
  phrases : List (Str × Str)
  deriving DecidableEq, Repr

/-- `parseQuickAddLines` from `app.js`: split into lines, trim, drop empty
lines, and route each `left = right` line to `phrases` when the normalized
left side contains a space, else to `words`. -/
def parseQuickAddLines (raw : Str) : Adds :=
  let lines := ((splitNl raw).map jsTrim).filter (fun l => !l.isEmpty)
  lines.foldl
    (fun adds line =>
      match parseEntry line with
      | none => adds
      | some (isPh, l, r) =>
        if isPh then { adds with phrases := insertA l r adds.phrases }
        else { adds with words := insertA l r adds.words })
    ⟨[], []⟩

/-- `mergeAddsIntoDict` from `app.js` (its dictionary update; persistence
and status display are external I/O): each added entry overwrites or extends
the corresponding sub-mapping, values stored as JS strings. -/
def mergeAddsIntoDict (d : Dict) (adds : Adds) : Dict :=
  { words := adds.words.foldl (fun ws kv => insertA kv.1 (.str kv.2) ws) d.words,
    phrases :=
      adds.phrases.foldl (fun ps kv => insertA kv.1 (.str kv.2) ps) d.phrases }

/-!  Spec-side definitions, written from the specification's words, to be
compared with the definitions above. -/

/-- Modelled from the spec (§4.4): the casing-transfer rules as the spec
states them — entirely-uppercase source (length > 1) uppercases the
translation; title-case source (first character uppercase, rest lowercase,
non-empty) capitalizes the first character and lowercases the rest;
entirely-lowercase source lowercases the translation; anything else returns
the stored translation unmodified.  "Uppercase"/"lowercase" mean fixed under
the respective case mapping, as in the source's `===` comparisons. -/
def applyCasingSpec (src t : Str) : Str :=
  if 1 < src.length ∧ src = jsToUpper src then jsToUpper t
  else if src ≠ [] ∧ src.take 1 = jsToUpper (src.take 1) ∧
      src.drop 1 = jsToLower (src.drop 1) then
    match t with
    | [] => []
    | c :: cs => asciiUpper c :: jsToLower cs
  else if src = jsToLower src then jsToLower t
  else t

/-- A well-formed word entry: a structured entry's `l` field, when truthy,
is a string.  Entries of every other shape never reach `applyCasing`. -/
def goodEntry : JSVal → Bool
  | .objL (.str _) => true
  | .objL v => !jsTruthy v
  | _ => true

/-- Whether a JS value is a string. -/
def isStrVal : JSVal → Bool
  | .str _ => true
  | _ => false

/-!  Concrete data used by witnesses and counterexamples. -/

/-- The token `Alex's` (apostrophe written via its character code). -/
def alexsTok : Str := ['A', 'l', 'e', 'x', apos, 's']

/-- Dictionary mapping the word `alex` to `aleks`. -/
def alexDict : Dict :=
  { words := [("alex".toList, .str "aleks".toList)], phrases := [] }

/-- Dictionary whose word `a` maps to a structured entry with a numeric
`l` field — a malformed entry that makes `applyCasing` throw. -/
def badNumDict : Dict :=
  { words := [(['a'], .objL (.num 1))], phrases := [] }

/-- Dictionary whose word `a` maps to the empty string. -/
def emptyValDict : Dict :=
  { words := [(['a'], .str [])], phrases := [(['a'], .str [])] }

/-- Dictionary mapping the word `hi` to `ya`. -/
def hiDict : Dict :=
  { words := [("hi".toList, .str "ya".toList)], phrases := [] }

/-- Dictionary mapping the phrase `good morning` to `yara muna`. -/
def gmDict : Dict :=
  { words := [], phrases := [("good morning".toList, .str "yara muna".toList)] }

/-!  Helper lemmas. -/

theorem length_dropWhile_le {α : Type} (p : α → Bool) (l : List α) :
    (l.dropWhile p).length ≤ l.length := by
  induction l with
  | nil => simp [List.dropWhile]
  | cons a l ih =>
    rw [List.dropWhile_cons]
    split
    · exact Nat.le_succ_of_le ih
    · exact Nat.le_refl _

theorem tokAux_flatten (n : Nat) : ∀ s : Str, s.length ≤ n →
    (tokAux n s).flatten = s := by
  induction n with
  | zero =>
    intro s hs
    have : s = [] := List.length_eq_zero.mp (Nat.le_zero.mp hs)
    subst this
    rfl
  | succ n ih =>
    intro s hs
    match s with
    | [] => rfl
    | c :: cs =>
      have hcs : cs.length ≤ n := Nat.lt_succ_iff.mp hs
      by_cases hc : isAsciiLetter c
      · have hdrop : (List.dropWhile isAsciiLetter (c :: cs)).length ≤ n := by
          rw [List.dropWhile_cons_of_pos hc]
          exact Nat.le_trans (length_dropWhile_le _ _) hcs
        have hjoin := List.takeWhile_append_dropWhile (p := isAsciiLetter)
          (l := c :: cs)
        rw [tokAux, if_pos hc]
        rcases hrest : List.dropWhile isAsciiLetter (c :: cs) with
          _ | ⟨c2, _ | ⟨d, r2⟩⟩
        · rw [hrest] at hdrop hjoin
          dsimp only
          rw [List.flatten_cons, ih [] (Nat.zero_le n)]
          exact hjoin
        · rw [hrest] at hdrop hjoin
          dsimp only
          rw [List.flatten_cons, ih [c2] hdrop]
          exact hjoin
        · rw [hrest] at hdrop hjoin
          dsimp only
          by_cases had : (decide (c2 = apos) && isAsciiLetter d) = true
          · rw [if_pos had]
            have hd : isAsciiLetter d = true := (Bool.and_eq_true .. |>.mp had).2
            have h2 : r2.length + 2 ≤ n := by
              simp only [List.length_cons] at hdrop
              omega
            have hlen2 : (List.dropWhile isAsciiLetter (d :: r2)).length ≤ n := by
              rw [List.dropWhile_cons_of_pos hd]
              exact Nat.le_trans (length_dropWhile_le _ _) (by omega)
            have hjoin2 := List.takeWhile_append_dropWhile (p := isAsciiLetter)
              (l := d :: r2)
            rw [List.flatten_cons, ih _ hlen2, List.append_assoc,
              List.cons_append, hjoin2]
            exact hjoin
          · rw [if_neg had]
            rw [List.flatten_cons, ih _ hdrop]
            exact hjoin
      · have hdrop : (List.dropWhile (fun x => !isAsciiLetter x)
            (c :: cs)).length ≤ n := by
          rw [List.dropWhile_cons_of_pos (by simp [hc])]
          exact Nat.le_trans (length_dropWhile_le _ _) hcs
        rw [tokAux, if_neg hc, List.flatten_cons, ih _ hdrop]
        exact List.takeWhile_append_dropWhile ..

theorem lookupA_insertA_self {α : Type} (k : Str) (v : α)
    (l : List (Str × α)) : lookupA k (insertA k v l) = some v := by
  induction l with
  | nil => simp [insertA, lookupA]
  | cons kv rest ih =>
    rcases kv with ⟨k2, v2⟩
    by_cases hk : k2 = k
    · subst hk
      simp [insertA, lookupA]
    · simp [insertA, lookupA, hk, ih]

theorem lookupA_insertA_ne {α : Type} (k k3 : Str) (v : α)
    (l : List (Str × α)) (hk : k3 ≠ k) :
    lookupA k3 (insertA k v l) = lookupA k3 l := by
  have hk2 : ¬ (k = k3) := fun h => hk h.symm
  induction l with
  | nil => simp [insertA, lookupA, hk2]
  | cons kv rest ih =>
    rcases kv with ⟨k2, v2⟩
    rw [insertA]
    by_cases h2 : k2 = k
    · subst h2
      rw [if_pos rfl, lookupA, if_neg hk2, lookupA, if_neg hk2]
    · rw [if_neg h2, lookupA, lookupA]
      by_cases h3 : k2 = k3
      · rw [if_pos h3, if_pos h3]
      · rw [if_neg h3, if_neg h3, ih]

theorem lookupA_insertA_isSome {α : Type} (k k3 : Str) (v v3 : α)
    (l : List (Str × α)) (h : lookupA k l = some v) :
    ∃ v2, lookupA k (insertA k3 v3 l) = some v2 := by
  by_cases hk : k3 = k
  · subst hk
    exact ⟨v3, lookupA_insertA_self ..⟩
  · refine ⟨v, ?_⟩
    rw [lookupA_insertA_ne _ _ _ _ (fun he => hk he.symm)]
    exact h

theorem lookupA_mem {α : Type} (k : Str) (l : List (Str × α)) (v : α)
    (h : lookupA k l = some v) : (k, v) ∈ l := by
  induction l with
  | nil => simp [lookupA] at h
  | cons kv rest ih =>
    rcases kv with ⟨k2, v2⟩
    rw [lookupA] at h
    by_cases h2 : k2 = k
    · subst h2
      rw [if_pos rfl] at h
      cases h
      exact List.mem_cons_self ..
    · rw [if_neg h2] at h
      exact List.mem_cons_of_mem _ (ih h)

theorem lookupWordD_truthy (dict : Option Dict) (w : Str) (v : JSVal)
    (h : lookupWordD dict w = some v) : jsTruthy v = true := by
  match dict with
  | none => simp [lookupWordD] at h
  | some d =>
    rw [lookupWordD] at h
    rcases hA : lookupA (jsToLower w) d.words with _ | entry
    · rw [hA] at h
      cases h
    · rw [hA] at h
      dsimp only at h
      by_cases ht : jsTruthy entry = true
      · rw [ht] at h
        simp only [Bool.not_true, Bool.false_eq_true, if_false] at h
        match entry, ht, h with
        | .str s, ht, h =>
          cases h
          exact ht
        | .objL v2, ht, h =>
          dsimp only at h
          by_cases h2 : jsTruthy v2 = true
          · rw [if_pos h2] at h
            cases h
            exact h2
          · rw [if_neg h2] at h
            cases h
      · rw [Bool.not_eq_true] at ht
        rw [ht] at h
        simp at h

theorem lookupPhraseD_truthy (dict : Option Dict) (t : Str) (v : JSVal)
    (h : lookupPhraseD dict t = some v) : jsTruthy v = true := by
  match dict with
  | none => simp [lookupPhraseD] at h
  | some d =>
    rw [lookupPhraseD] at h
    rcases hA : lookupA (jsToLower (normalizeSpaces t)) d.phrases with _ | p
    · rw [hA] at h
      cases h
    · rw [hA] at h
      dsimp only at h
      by_cases ht : jsTruthy p = true
      · rw [if_pos ht] at h
        cases h
        exact ht
      · rw [if_neg ht] at h
        cases h

theorem isAllCaps_iff (s : Str) :
    isAllCaps s = true ↔ 1 < s.length ∧ s = jsToUpper s := by
  simp [isAllCaps]

theorem isTitleCase_iff (s : Str) :
    isTitleCase s = true ↔
      s ≠ [] ∧ s.take 1 = jsToUpper (s.take 1) ∧
        s.drop 1 = jsToLower (s.drop 1) := by
  cases s with
  | nil => simp [isTitleCase]
  | cons c cs =>
    simp only [isTitleCase, decide_eq_true_eq, List.take, List.drop,
      jsToUpper, jsToLower, List.map, ne_eq, reduceCtorEq, not_false_iff,
      true_and, List.cons.injEq, List.map_nil, and_true]
    constructor
    · rintro ⟨h1, h2⟩
      exact ⟨h1.symm, h2⟩
    · rintro ⟨h1, h2⟩
      exact ⟨h1.symm, h2⟩

theorem applyCasing_str (src t : Str) (h : t ≠ []) :
    applyCasingJS src (.str t) = .ok (.str (applyCasingSpec src t)) := by
  have ht : jsTruthy (JSVal.str t) = true := by
    cases t with
    | nil => exact absurd rfl h
    | cons a l => simp [jsTruthy]
  simp only [applyCasingJS, applyCasingSpec, ht, Bool.not_true,
    Bool.false_eq_true, if_false]
  by_cases h1 : isAllCaps src = true
  · rw [if_pos h1, if_pos ((isAllCaps_iff src).mp h1)]
  · rw [if_neg h1, if_neg (fun hp => h1 ((isAllCaps_iff src).mpr hp))]
    by_cases h2 : isTitleCase src = true
    · rw [if_pos h2, if_pos ((isTitleCase_iff src).mp h2)]
    · rw [if_neg h2, if_neg (fun hp => h2 ((isTitleCase_iff src).mpr hp))]
      by_cases h3 : src = jsToLower src
      · rw [if_pos h3, if_pos h3]
      · rw [if_neg h3, if_neg h3]

theorem mapME_ok {α β : Type} (f : α → Except Unit β) (l : List α)
    (h : ∀ a ∈ l, ∃ b, f a = .ok b) : ∃ bs, mapME f l = .ok bs := by
  induction l with
  | nil => exact ⟨[], rfl⟩
  | cons a as ih =>
    rcases h a (List.mem_cons_self ..) with ⟨b, hb⟩
    rcases ih (fun x hx => h x (List.mem_cons_of_mem _ hx)) with ⟨bs, hbs⟩
    refine ⟨b :: bs, ?_⟩
    rw [mapME, hb, hbs]

theorem lookupWordD_isStr (d : Dict) (w : Str) (f : JSVal)
    (hall : d.words.all (fun kv => goodEntry kv.2) = true)
    (hf : lookupWordD (some d) w = some f) : isStrVal f = true := by
  rw [lookupWordD] at hf
  rcases hA : lookupA (jsToLower w) d.words with _ | entry
  · rw [hA] at hf
    cases hf
  · rw [hA] at hf
    dsimp only at hf
    have hgood : goodEntry entry = true :=
      List.all_eq_true.mp hall _ (lookupA_mem _ _ _ hA)
    by_cases ht : jsTruthy entry = true
    · rw [ht] at hf
      simp only [Bool.not_true, Bool.false_eq_true, if_false] at hf
      match entry, hgood, hf with
      | .str s, _, hf =>
        cases hf
        rfl
      | .objL v2, hgood, hf =>
        dsimp only at hf
        by_cases h2 : jsTruthy v2 = true
        · rw [if_pos h2] at hf
          cases hf
          match f, hgood, h2 with
          | .str s, _, _ => rfl
          | .num n, hgood, h2 => simp [goodEntry, h2] at hgood
          | .boolv b, hgood, h2 => simp [goodEntry, h2] at hgood
          | .nullv, hgood, h2 => simp [goodEntry, h2] at hgood
          | .objPlain, hgood, h2 => simp [goodEntry, h2] at hgood
          | .objL v3, hgood, h2 => simp [goodEntry, h2] at hgood
        · rw [if_neg h2] at hf
          cases hf
    · rw [Bool.not_eq_true] at ht
      rw [ht] at hf
      simp at hf

theorem lookupPhraseD_eq_lookupA (d : Dict) (t : Str) (p : JSVal)
    (h : lookupPhraseD (some d) t = some p) :
    lookupA (jsToLower (normalizeSpaces t)) d.phrases = some p := by
  rw [lookupPhraseD] at h
  rcases hA : lookupA (jsToLower (normalizeSpaces t)) d.phrases with _ | q
  · rw [hA] at h
    cases h
  · rw [hA] at h
    dsimp only at h
    by_cases ht : jsTruthy q = true
    · rw [if_pos ht] at h
      cases h
      rfl
    · rw [if_neg ht] at h
      cases h

theorem translateTok_ok (d : Dict) (mu : Bool) (tok : Str)
    (hall : d.words.all (fun kv => goodEntry kv.2) = true) :
    ∃ s : Str, translateTok d mu tok = .ok (.str s) := by
  rw [translateTok]
  by_cases hw : isWordToken tok = true
  · rw [if_pos hw]
    dsimp only
    rcases hL : lookupWordD (some d) (possStrip (jsToLower tok)).2 with _ | found
    · exact ⟨_, rfl⟩
    · have htr := lookupWordD_truthy _ _ _ hL
      have hstr := lookupWordD_isStr _ _ _ hall hL
      match found, htr, hstr with
      | .str s, htr, _ =>
        have hs : s ≠ [] := by
          intro he
          subst he
          simp [jsTruthy] at htr
        dsimp only
        rw [htr]
        simp only [Bool.not_true, Bool.false_eq_true, if_false]
        rw [applyCasing_str _ _ hs]
        dsimp only
        by_cases hp : (possStrip (jsToLower tok)).1 = true
        · rw [if_pos hp]
          exact ⟨_, rfl⟩
        · rw [if_neg hp]
          exact ⟨_, rfl⟩
  · rw [if_neg hw]
    exact ⟨_, rfl⟩

theorem translateText_ok (d : Dict) (pp mu : Bool) (text : Str)
    (hall : d.words.all (fun kv => goodEntry kv.2) = true)
    (hph : d.phrases.all (fun kv => isStrVal kv.2) = true) :
    ∃ s : Str, translateText (some d) pp mu text = .ok (.str s) := by
  have hm : ∃ outs, mapME (translateTok d mu) (tokenizeKeepPunct text) =
      .ok outs := by
    apply mapME_ok
    intro a _
    rcases translateTok_ok d mu a hall with ⟨s, hsv⟩
    exact ⟨_, hsv⟩
  rcases hm with ⟨outs, hm⟩
  have hphrase : ∀ p, lookupPhraseD (some d) text = some p →
      ∃ s : Str, p = .str s := by
    intro p hp
    have hstr : isStrVal p = true :=
      List.all_eq_true.mp hph _ (lookupA_mem _ _ _ (lookupPhraseD_eq_lookupA _ _ _ hp))
    match p, hstr with
    | .str s, _ => exact ⟨s, rfl⟩
  rw [translateText]
  rw [hm]
  dsimp only
  cases pp
  · simp only [Bool.false_eq_true, if_false]
    rcases hp : lookupPhraseD (some d) text with _ | p
    · exact ⟨_, rfl⟩
    · rcases hphrase p hp with ⟨s, rfl⟩
      exact ⟨s, rfl⟩
  · simp only [if_true]
    rcases hp : lookupPhraseD (some d) text with _ | p
    · exact ⟨_, rfl⟩
    · rcases hphrase p hp with ⟨s, rfl⟩
      exact ⟨s, rfl⟩

theorem translateText_false_eq (d : Dict) (mu : Bool) (text : Str) :
    translateText (some d) false mu text =
      match wordByWord d mu text with
      | .error e => .error e
      | .ok joined =>
        match lookupPhraseD (some d) text with
        | some p => .ok p
        | none => .ok (.str joined) := by
  rw [translateText, wordByWord]
  simp only [Bool.false_eq_true, if_false]

theorem splitNlAux_no_nl (s : Str) (h : ∀ c ∈ s, c ≠ nlChar) :
    ∀ acc : Str, splitNlAux acc s = [acc.reverse ++ s] := by
  induction s with
  | nil =>
    intro acc
    simp [splitNlAux]
  | cons c cs ih =>
    intro acc
    rw [splitNlAux, if_neg (h c (List.mem_cons_self ..)),
      ih (fun x hx => h x (List.mem_cons_of_mem _ hx)) (c :: acc)]
    simp

theorem parseQuickAddLines_single (line left right : Str) (isPh : Bool)
    (hnl : ∀ c ∈ line, c ≠ nlChar)
    (hp : parseEntry (jsTrim line) = some (isPh, left, right)) :
    parseQuickAddLines line =
      if isPh then ⟨[], [(left, right)]⟩ else ⟨[(left, right)], []⟩ := by
  have hsplit : splitNl line = [line] := by
    rw [splitNl, splitNlAux_no_nl line hnl []]
    rfl
  have hne : (jsTrim line).isEmpty = false := by
    rcases he : jsTrim line with _ | ⟨c, cs⟩
    · rw [he] at hp
      simp [parseEntry, splitFirstEq] at hp
    · rfl
  rw [parseQuickAddLines, hsplit]
  dsimp only [List.map]
  rw [List.filter_cons, hne]
  dsimp only [Bool.not_false, if_true, List.filter_nil, List.foldl]
  rw [hp]
  cases isPh
  · rfl
  · rfl

/-- Claim C1: for every input string, concatenating the tokens of
`tokenizeKeepPunct` in order reproduces the input exactly, and the empty
string tokenizes to the empty sequence. -/
theorem C1_tokenize_roundtrip :
    (∀ s : Str, (tokenizeKeepPunct s).flatten = s) ∧
      tokenizeKeepPunct [] = [] :=
  ⟨fun s => tokAux_flatten s.length s (Nat.le_refl _), rfl⟩

/-- Claim C8: with no active dictionary, `translateText` returns its input
unchanged for every flag combination, including `markUnknown`. -/
theorem C8_identity_fallback (pp mu : Bool) (text : Str) :
    translateText none pp mu text = .ok (.str text) := rfl

/-- Claim C5: for every original token and non-empty found translation,
`applyCasing` returns the translation fully uppercased when the token is
entirely uppercase and longer than one character, else first-uppercased and
rest-lowercased when the token is title-case, else fully lowercased when
the token is entirely lowercase, else exactly as stored
(`applyCasingSpec` spells out exactly these four rules). -/
theorem C5_applyCasing_transfer (src t : Str) (h : t ≠ []) :
    applyCasingJS src (.str t) = .ok (.str (applyCasingSpec src t)) :=
  applyCasing_str src t h

theorem C5_applyCasing_transfer_witness :
    applyCasingJS "HELLO".toList (.str "ya".toList) =
      .ok (.str "YA".toList) :=
  (C5_applyCasing_transfer "HELLO".toList "ya".toList (by decide)).trans rfl

/-- Claim C6 counterexample: the whole input `a` is a key of `phrases`,
but its stored value is the empty string, which is falsy, so with
`preferPhrases` set the phrase is NOT returned: the word-by-word pass runs
and echoes the input instead of producing the stored value. -/
theorem C6_phrase_key_counterexample :
    lookupA (jsToLower (normalizeSpaces ['a'])) emptyValDict.phrases =
      some (.str []) ∧
    translateText (some emptyValDict) true false ['a'] =
      .ok (.str ['a']) :=
  ⟨rfl, rfl⟩

/-- Claim C6 (amended): with `preferPhrases` set, when the case-folded normalized whole
input is a key of `phrases` carrying a truthy value, `translateText`
returns that stored value exactly, with no word-level processing. -/
theorem C6_prefer_phrases_hit (d : Dict) (mu : Bool) (text : Str) (p : JSVal)
    (hk : lookupA (jsToLower (normalizeSpaces text)) d.phrases = some p)
    (ht : jsTruthy p = true) :
    translateText (some d) true mu text = .ok p := by
  have hp : lookupPhraseD (some d) text = some p := by
    rw [lookupPhraseD, hk]
    dsimp only
    rw [if_pos ht]
  rw [translateText]
  simp only [if_true]
  rw [hp]

theorem C6_prefer_phrases_hit_witness :
    translateText (some gmDict) true false "Good Morning".toList =
      .ok (.str "yara muna".toList) :=
  C6_prefer_phrases_hit gmDict false "Good Morning".toList
    (.str "yara muna".toList) rfl rfl

/-- Claim C3 counterexample: a dictionary whose word `a` is a structured entry
with a truthy non-string primary field (`{l: 1}`) makes `translateText`
throw a `TypeError` (the code calls `toLowerCase` on the number), so
`translateText` is not total over arbitrary dictionary shapes. -/
theorem C3_translate_throws_counterexample :
    translateText (some badNumDict) false false ['a'] = .error () := rfl

/-- Claim C3 (amended): `translateText` never throws and returns a string
provided every structured word entry's primary `l` field is a string
whenever it is truthy, and every phrase value is a string. -/
theorem C3_translate_total_amended (d : Dict) (pp mu : Bool) (text : Str)
    (hall : d.words.all (fun kv => goodEntry kv.2) = true)
    (hph : d.phrases.all (fun kv => isStrVal kv.2) = true) :
    ∃ s : Str, translateText (some d) pp mu text = .ok (.str s) :=
  translateText_ok d pp mu text hall hph

theorem C3_translate_total_amended_witness :
    ∃ s : Str, translateText (some hiDict) true true "hi zzz".toList =
      .ok (.str s) :=
  C3_translate_total_amended hiDict true true "hi zzz".toList rfl rfl

/-- Claim C2: with `preferPhrases` off, once the word-by-word pass has produced
its result, a whole-input phrase hit overrides that result, and a phrase
miss leaves the word-by-word result in place. -/
theorem C2_phrase_fallback_override (d : Dict) (mu : Bool) (text : Str)
    (p : JSVal) (j : Str) (hw : wordByWord d mu text = .ok j) :
    (lookupPhraseD (some d) text = some p →
      translateText (some d) false mu text = .ok p)
    ∧ (lookupPhraseD (some d) text = none →
      translateText (some d) false mu text = .ok (.str j)) := by
  constructor
  · intro hp
    rw [translateText_false_eq, hw]
    dsimp only
    rw [hp]
  · intro hp
    rw [translateText_false_eq, hw]
    dsimp only
    rw [hp]

theorem C2_phrase_fallback_override_witness :
    translateText (some hiDict) false false "hi".toList =
      .ok (.str "ya".toList) :=
  (C2_phrase_fallback_override hiDict false "hi".toList (.str [])
    "ya".toList rfl).2 rfl

/-- Claim C4: a word token whose case-folded base ends in `'s` with length over
two is translated by looking up the base with the suffix stripped, applying
casing transfer from the full original token, and appending `-de`; a base
of length at most two is never stripped (`possStrip` leaves it whole).  In
particular `Alex's` with `alex → aleks` gives `Aleks-de` (see witness). -/
theorem C4_possessive_rule (d : Dict) (mu : Bool) (tok t : Str)
    (hw : isWordToken tok = true)
    (hs : endsApoS (jsToLower tok) = true)
    (hl : 2 < (jsToLower tok).length)
    (hf : lookupWordD (some d)
      ((jsToLower tok).take ((jsToLower tok).length - 2)) = some (.str t)) :
    translateTok d mu tok = .ok (.str (applyCasingSpec tok t ++ deSuffix))
    ∧ (∀ b : Str, b.length ≤ 2 → possStrip b = (false, b)) := by
  constructor
  · have hps : possStrip (jsToLower tok) =
        (true, (jsToLower tok).take ((jsToLower tok).length - 2)) := by
      rw [possStrip, if_pos]
      simp [hs, hl]
    have htr := lookupWordD_truthy _ _ _ hf
    have ht : t ≠ [] := by
      intro he
      subst he
      simp [jsTruthy] at htr
    rw [translateTok, if_pos hw]
    dsimp only
    rw [hps]
    dsimp only
    rw [hf]
    dsimp only
    rw [htr]
    simp only [Bool.not_true, Bool.false_eq_true, if_false]
    rw [applyCasing_str _ _ ht]
    dsimp only
    rfl
  · intro b hb
    rw [possStrip]
    have hlt : ¬ (2 < b.length) := Nat.not_lt.mpr hb
    simp [hlt]

theorem C4_possessive_rule_witness :
    translateTok alexDict false alexsTok = .ok (.str "Aleks-de".toList) :=
  (C4_possessive_rule alexDict false alexsTok "aleks".toList
    (by decide) (by decide) (by decide) rfl).1.trans rfl

/-- Claim C7 counterexample: the word `a` stores the plain string value `""`,
yet `lookupWord` reports not-found (`null`) instead of returning that
string, because `!entry` treats the empty string as falsy. -/
theorem C7_lookupWord_counterexample :
    lookupA (jsToLower ['a']) emptyValDict.words = some (.str []) ∧
      lookupWordD (some emptyValDict) ['a'] = none :=
  ⟨rfl, rfl⟩

/-- Claim C7 (amended): `lookupWord` case-folds the word and looks it up in
`words`; a NON-EMPTY plain string value is returned as is; a structured
entry with a truthy primary `l` field returns that field; in every other
case — key absent, dictionary absent, falsy or non-string non-object
value, structured entry with falsy `l` — it reports not-found.  It is a
pure function of its arguments. -/
theorem C7_lookupWord_amended (d : Dict) (w : Str) :
    (∀ s : Str, lookupA (jsToLower w) d.words = some (.str s) → s ≠ [] →
      lookupWordD (some d) w = some (.str s))
    ∧ (∀ v : JSVal, lookupA (jsToLower w) d.words = some (.objL v) →
      jsTruthy v = true → lookupWordD (some d) w = some v)
    ∧ (lookupA (jsToLower w) d.words = none →
      lookupWordD (some d) w = none)
    ∧ lookupWordD none w = none
    ∧ (∀ n : Int, lookupA (jsToLower w) d.words = some (.num n) →
      lookupWordD (some d) w = none)
    ∧ (∀ b : Bool, lookupA (jsToLower w) d.words = some (.boolv b) →
      lookupWordD (some d) w = none)
    ∧ (lookupA (jsToLower w) d.words = some .nullv →
      lookupWordD (some d) w = none)
    ∧ (lookupA (jsToLower w) d.words = some .objPlain →
      lookupWordD (some d) w = none)
    ∧ (∀ v : JSVal, lookupA (jsToLower w) d.words = some (.objL v) →
      jsTruthy v = false → lookupWordD (some d) w = none) := by
  refine ⟨?_, ?_, ?_, rfl, ?_, ?_, ?_, ?_, ?_⟩
  · intro s h hs
    rw [lookupWordD, h]
    dsimp only
    have ht : jsTruthy (JSVal.str s) = true := by
      cases s with
      | nil => exact absurd rfl hs
      | cons a l => rfl
    rw [ht]
    rfl
  · intro v h hv
    rw [lookupWordD, h]
    dsimp only
    rw [if_pos hv]
    rfl
  · intro h
    rw [lookupWordD, h]
  · intro n h
    rw [lookupWordD, h]
    dsimp only
    by_cases hn : jsTruthy (JSVal.num n) = true
    · rw [hn]
      rfl
    · rw [Bool.not_eq_true] at hn
      rw [hn]
      rfl
  · intro b h
    rw [lookupWordD, h]
    cases b
    · rfl
    · rfl
  · intro h
    rw [lookupWordD, h]
    rfl
  · intro h
    rw [lookupWordD, h]
    rfl
  · intro v h hv
    rw [lookupWordD, h]
    dsimp only
    rw [hv]
    rfl

theorem C7_lookupWord_amended_witness :
    lookupWordD (some hiDict) "HI".toList = some (.str "ya".toList) :=
  (C7_lookupWord_amended hiDict "HI".toList).1 "ya".toList rfl (by decide)

/-- Claim C9: a quick-add line parsed as `left = right` stores, after the merge,
the entry under the case-folded whitespace-normalized left side, in
`phrases` when that key contains a space and in `words` otherwise, keeping
the value's casing; the named key is overwritten, every other key of the
prior dictionary is unchanged, and no entry is removed. -/
theorem C9_merge_routing_frame (d : Dict) (line pre suf left right : Str)
    (isPh : Bool)
    (hnl : ∀ c ∈ line, c ≠ nlChar)
    (hsplit : splitFirstEq (jsTrim line) = some (pre, suf))
    (hp : parseEntry (jsTrim line) = some (isPh, left, right)) :
    left = jsToLower (normalizeSpaces pre)
    ∧ right = normalizeSpaces suf
    ∧ isPh = left.contains ' '
    ∧ mergeAddsIntoDict d (parseQuickAddLines line) =
        (if isPh then
          { words := d.words, phrases := insertA left (.str right) d.phrases }
        else
          { words := insertA left (.str right) d.words,
            phrases := d.phrases })
    ∧ lookupA left (insertA left (.str right) d.words) = some (.str right)
    ∧ lookupA left (insertA left (.str right) d.phrases) = some (.str right)
    ∧ (∀ k, k ≠ left →
        lookupA k (insertA left (.str right) d.words) = lookupA k d.words
        ∧ lookupA k (insertA left (.str right) d.phrases) =
            lookupA k d.phrases)
    ∧ (∀ k v, lookupA k d.words = some v →
        ∃ v2, lookupA k (insertA left (.str right) d.words) = some v2)
    ∧ (∀ k v, lookupA k d.phrases = some v →
        ∃ v2, lookupA k (insertA left (.str right) d.phrases) = some v2) := by
  rw [parseEntry, hsplit] at hp
  dsimp only at hp
  by_cases hc : ((jsToLower (normalizeSpaces pre)).isEmpty ||
      (normalizeSpaces suf).isEmpty) = true
  · rw [if_pos hc] at hp
    cases hp
  · rw [if_neg hc] at hp
    simp only [Option.some.injEq, Prod.mk.injEq] at hp
    obtain ⟨h1, h2, h3⟩ := hp
    subst h1
    subst h2
    subst h3
    have hp2 : parseEntry (jsTrim line) =
        some ((jsToLower (normalizeSpaces pre)).contains ' ',
          jsToLower (normalizeSpaces pre), normalizeSpaces suf) := by
      rw [parseEntry, hsplit]
      dsimp only
      rw [if_neg hc]
    refine ⟨rfl, rfl, rfl, ?_, lookupA_insertA_self .., lookupA_insertA_self ..,
      fun k hk => ⟨lookupA_insertA_ne _ _ _ _ hk, lookupA_insertA_ne _ _ _ _ hk⟩,
      fun k v h => lookupA_insertA_isSome _ _ _ _ _ h,
      fun k v h => lookupA_insertA_isSome _ _ _ _ _ h⟩
    rw [parseQuickAddLines_single line _ _ _ hnl hp2]
    by_cases hC : ((jsToLower (normalizeSpaces pre)).contains ' ') = true
    · rw [if_pos hC, if_pos hC]
      rfl
    · rw [if_neg hC, if_neg hC]
      rfl

theorem C9_merge_routing_frame_witness :
    mergeAddsIntoDict gmDict (parseQuickAddLines "hello = ya".toList) =
      { words := insertA "hello".toList (.str "ya".toList) gmDict.words,
        phrases := gmDict.phrases } :=
  ((C9_merge_routing_frame gmDict "hello = ya".toList "hello ".toList
    " ya".toList "hello".toList "ya".toList false (by decide) rfl
    rfl).2.2.2.1).trans rfl

/-- Claim C10: lookups treat degenerate stored values as misses —
`lookupWord` and `lookupPhrase` only ever return truthy values, a word
entry that is the empty string, a structured entry with an empty `l`
field, or a structured entry with no `l` field at all makes the word
lookup miss so the token is echoed (or bracket-marked under
`markUnknown`), and an empty-string phrase entry never overrides the
word-by-word result. -/
theorem C10_empty_entry_is_miss :
    (∀ (d : Dict) (w : Str) (v : JSVal),
      lookupWordD (some d) w = some v → jsTruthy v = true)
    ∧ (∀ (d : Dict) (t : Str) (v : JSVal),
      lookupPhraseD (some d) t = some v → jsTruthy v = true)
    ∧ (∀ (d : Dict) (w : Str),
      lookupA (jsToLower w) d.words = some (.str []) →
        lookupWordD (some d) w = none)
    ∧ (∀ (d : Dict) (w : Str),
      lookupA (jsToLower w) d.words = some (.objL (.str [])) →
        lookupWordD (some d) w = none)
    ∧ (∀ (d : Dict) (w : Str),
      lookupA (jsToLower w) d.words = some .objPlain →
        lookupWordD (some d) w = none)
    ∧ (∀ (d : Dict) (t : Str),
      lookupA (jsToLower (normalizeSpaces t)) d.phrases = some (.str []) →
        lookupPhraseD (some d) t = none)
    ∧ (∀ (d : Dict) (mu : Bool) (tok : Str), isWordToken tok = true →
      lookupWordD (some d) (possStrip (jsToLower tok)).2 = none →
        translateTok d mu tok =
          .ok (.str (if mu then bracketTok tok else tok)))
    ∧ (∀ (d : Dict) (mu : Bool) (text j : Str),
      lookupPhraseD (some d) text = none → wordByWord d mu text = .ok j →
        translateText (some d) false mu text = .ok (.str j)) := by
  refine ⟨fun d w v h => lookupWordD_truthy _ _ _ h,
    fun d t v h => lookupPhraseD_truthy _ _ _ h, ?_, ?_, ?_, ?_, ?_, ?_⟩
  · intro d w h
    rw [lookupWordD, h]
    rfl
  · intro d w h
    rw [lookupWordD, h]
    rfl
  · intro d w h
    rw [lookupWordD, h]
    rfl
  · intro d t h
    rw [lookupPhraseD, h]
    rfl
  · intro d mu tok hw hL
    rw [translateTok, if_pos hw]
    dsimp only
    rw [hL]
  · intro d mu text j hp hw
    rw [translateText_false_eq, hw]
    dsimp only
    rw [hp]

theorem C10_empty_entry_is_miss_witness :
    translateTok emptyValDict true ['a'] = .ok (.str (bracketTok ['a'])) :=
  C10_empty_entry_is_miss.2.2.2.2.2.2.1 emptyValDict true ['a'] rfl rfl
